import Mathlib

/-!
Verification of the BSP-tree CSG core of the solidgeometry repository.

The source files embedded here are `src/bsp.js` (BSPNode, Partition, trim,
treeTrimSelf, flip, clone, Union, Intersect, Subtract) and the geometry part
of the unnamed source (`Vector`, `Plane`, `Polygon`, `Geometry`).

Number model: the JavaScript code computes with IEEE doubles; the embedding
uses `ℚ`.  `Math.sqrt` is modelled by `ratSqrt`, which is exact whenever the
numerator and denominator are perfect squares; every concrete input used in a
witness or counterexample below keeps all square roots exact, so no rounding
artefact enters any concrete evaluation.  Division by zero in `ℚ` is total
(yields 0) and models the JavaScript NaN/Infinity cases, which are never hit
on the inputs of any theorem below.

The source's `Vector` is named `Vec` here because `Vector` already exists in
the ambient library; all other names follow the source.
-/

/-- The coplanarity tolerance `1e-5` from `Plane.prototype.bisect`. -/
def epsQ : ℚ := 1 / 100000

/-- Floor square root on naturals (structural recursion, so concrete values
reduce inside the kernel). -/
def sqrtNat (n : Nat) : Nat :=
  (List.range (n + 1)).foldl (fun acc k => if k * k ≤ n then k else acc) 0

/-- Model of `Math.sqrt` on rationals: exact when numerator and denominator
are perfect squares (the only case exercised by concrete inputs below). -/
def ratSqrt (q : ℚ) : ℚ := (sqrtNat q.num.toNat : ℚ) / (sqrtNat q.den : ℚ)

/-- `Vector` from the unnamed source (renamed, see header). -/
structure Vec where
  x : ℚ
  y : ℚ
  z : ℚ
deriving DecidableEq

def Vec.plus (a b : Vec) : Vec := ⟨a.x + b.x, a.y + b.y, a.z + b.z⟩

def Vec.minus (a b : Vec) : Vec := ⟨a.x - b.x, a.y - b.y, a.z - b.z⟩

def Vec.times (a : Vec) (t : ℚ) : Vec := ⟨a.x * t, a.y * t, a.z * t⟩

def Vec.divide (a : Vec) (t : ℚ) : Vec := ⟨a.x / t, a.y / t, a.z / t⟩

def Vec.dot (a b : Vec) : ℚ := a.x * b.x + a.y * b.y + a.z * b.z

def Vec.cross (a b : Vec) : Vec :=
  ⟨a.y * b.z - a.z * b.y, a.z * b.x - a.x * b.z, a.x * b.y - a.y * b.x⟩

def Vec.magnitude (a : Vec) : ℚ := ratSqrt (a.dot a)

def Vec.flip (a : Vec) : Vec := a.times (-1)

def Vec.unit (a : Vec) : Vec := a.divide a.magnitude

/-- `lerp = (1-t)*u + t*v`. -/
def Vec.lerp (a b : Vec) (t : ℚ) : Vec := (a.times (1 - t)).plus (b.times t)

def Vec.clone (a : Vec) : Vec := ⟨a.x, a.y, a.z⟩

/-- `Plane` in Hessian normal form, from the unnamed source. -/
structure Plane where
  normal : Vec
  p : ℚ
deriving DecidableEq

def Plane.flip (pl : Plane) : Plane := ⟨pl.normal.flip, -pl.p⟩

def Plane.clone (pl : Plane) : Plane := ⟨pl.normal, pl.p⟩

/-- `Plane.ofTriangle`: `u = a-b`, `v = c-b`, normal `(v × u).unit()`,
`p = -(normal · a)`. -/
def Plane.ofTriangle (a b c : Vec) : Plane :=
  let u := a.minus b
  let v := c.minus b
  let normal := (v.cross u).unit
  ⟨normal, -(normal.dot a)⟩

/-- Signed distance `d = normal · v + p` computed inside `bisect`. -/
def Plane.dist (pl : Plane) (v : Vec) : ℚ := pl.normal.dot v + pl.p

/-- The three-way classification tag used by `bisect`
(the source uses the strings "front" / "back" / "plane"). -/
inductive Loc where
  | front
  | back
  | plane
deriving DecidableEq

/-- Per-vertex classification from `bisect` lines 401-415:
`d > 1e-5 → front`, `d < -1e-5 → back`, otherwise `plane`. -/
def Plane.classify (pl : Plane) (v : Vec) : Loc :=
  if pl.dist v > epsQ then .front
  else if pl.dist v < -epsQ then .back
  else .plane

/-- Opaque polygon payload: the source stores a `vec4` color. -/
structure Color where
  r : ℚ
  g : ℚ
  b : ℚ
  a : ℚ
deriving DecidableEq

/-- `Polygon`: vertices, color, and the plane derived by the constructor. -/
structure Polygon where
  vertices : List Vec
  color : Color
  plane : Plane
deriving DecidableEq

/-- The `Polygon` constructor: derives `plane` from the first three
vertices via `Plane.ofTriangle`. -/
def mkPolygon (vertices : List Vec) (color : Color) : Polygon :=
  ⟨vertices, color,
   Plane.ofTriangle (vertices.getD 0 ⟨0, 0, 0⟩) (vertices.getD 1 ⟨0, 0, 0⟩)
     (vertices.getD 2 ⟨0, 0, 0⟩)⟩

/-- `Polygon.prototype.clone`: deep-copies the vertices and re-runs the
constructor, which re-derives the plane from the copied vertices. -/
def Polygon.clone (q : Polygon) : Polygon :=
  mkPolygon (q.vertices.map Vec.clone) q.color

/-- `Polygon.prototype.flip`: clone, reverse the vertex order, flip the
(clone-re-derived) plane. -/
def Polygon.flip (q : Polygon) : Polygon :=
  let copy := q.clone
  ⟨copy.vertices.reverse, copy.color, copy.plane.flip⟩

/-- The four output buckets of `Plane.prototype.bisect`; the source passes
them as four output-array parameters that the call appends to. -/
structure BisectOut where
  front : List Polygon
  samePlane : List Polygon
  behind : List Polygon
  reversePlane : List Polygon
deriving DecidableEq

/-- One iteration of the vertex-pair loop of `bisect` (lines 452-486):
push `vert1` into the bucket(s) named by its classification, then, when the
pair straddles the plane, push the ray-plane intersection point into both. -/
def bisectStep (pl : Plane) (polygon : Polygon)
    (acc : List Vec × List Vec) (i : Nat) : List Vec × List Vec :=
  let location := polygon.vertices.map pl.classify
  let n := polygon.vertices.length
  let vert1 := polygon.vertices.getD i ⟨0, 0, 0⟩
  let loc1 := location.getD i .plane
  let vert2 := polygon.vertices.getD ((i + 1) % n) ⟨0, 0, 0⟩
  let loc2 := location.getD ((i + 1) % n) .plane
  let acc1 :=
    match loc1 with
    | .front => (acc.1 ++ [vert1], acc.2)
    | .back => (acc.1, acc.2 ++ [vert1])
    | .plane => (acc.1 ++ [vert1], acc.2 ++ [vert1.clone])
  if loc1 ≠ loc2 ∧ loc1 ≠ .plane ∧ loc2 ≠ .plane then
    let V := vert2.minus vert1
    let t := -(vert1.dot pl.normal + pl.p) / V.dot pl.normal
    let bisectPoint := vert1.lerp vert2 t
    (acc1.1 ++ [bisectPoint], acc1.2 ++ [bisectPoint.clone])
  else acc1

/-- `Plane.prototype.bisect`, return-value form: the four lists are what the
call appends to its four output-array parameters. -/
def Plane.bisect (pl : Plane) (polygon : Polygon) : BisectOut :=
  let location := polygon.vertices.map pl.classify
  let isCoplanar := location.foldl (fun acc x => acc && (x == Loc.plane)) true
  if isCoplanar then
    if pl.normal.dot polygon.plane.normal > 0 then ⟨[], [polygon], [], []⟩
    else ⟨[], [], [], [polygon]⟩
  else
    let nfnb := (List.range polygon.vertices.length).foldl (bisectStep pl polygon) ([], [])
    ⟨if 3 ≤ nfnb.1.length then [mkPolygon nfnb.1 polygon.color] else [],
     [],
     if 3 ≤ nfnb.2.length then [mkPolygon nfnb.2 polygon.color] else [],
     []⟩

/-- A BSP-tree node: `hyperPlane`, coplanar `polygons`, optional `front` and
`behind` children (`null` in the source becomes `none`). -/
inductive BSPNode where
  | mk (hyperPlane : Option Plane) (polygons : List Polygon)
       (front : Option BSPNode) (behind : Option BSPNode) : BSPNode

def BSPNode.hyperPlane : BSPNode → Option Plane
  | .mk hp _ _ _ => hp

def BSPNode.polygons : BSPNode → List Polygon
  | .mk _ ps _ _ => ps

def BSPNode.front : BSPNode → Option BSPNode
  | .mk _ _ fr _ => fr

def BSPNode.behind : BSPNode → Option BSPNode
  | .mk _ _ _ bk => bk

/-- The `BSPNode` constructor: no plane, no polygons, no children. -/
def emptyNode : BSPNode := .mk none [] none none

/-- `BSPNode.prototype.concatPolys`: this node's polygons, then the front
subtree's, then the behind subtree's. -/
def BSPNode.concatPolys : BSPNode → List Polygon
  | .mk _ ps fr bk =>
    ((ps.map fun q => q) ++
      (match fr with
       | some f => f.concatPolys
       | none => [])) ++
      (match bk with
       | some b => b.concatPolys
       | none => [])

/-- The bucket accumulation of `BSPNode.prototype.trim` lines 129-133: the
source calls `hyperPlane.bisect(polys[i], out, out, inside, inside)`, so per
input polygon the `front` and `samePlane` results are appended to `out` and
the `behind` and `reversePlane` results to `inside`. -/
def trimPartition (pl : Plane) (polys : List Polygon) :
    List Polygon × List Polygon :=
  polys.foldl
    (fun acc q =>
      (acc.1 ++ ((pl.bisect q).front ++ (pl.bisect q).samePlane),
       acc.2 ++ ((pl.bisect q).behind ++ (pl.bisect q).reversePlane)))
    ([], [])

/-- `BSPNode.prototype.trim`: a node without a hyperplane returns a fresh
copy of the input list; otherwise split into out/inside buckets, recurse the
out bucket into `front` and the inside bucket into `behind`, discarding the
inside bucket entirely when there is no `behind` child. -/
def BSPNode.trim (node : BSPNode) (polys : List Polygon) : List Polygon :=
  match node with
  | .mk none _ _ _ => polys.map fun q => q
  | .mk (some hp) _ fr bk =>
    let buckets := trimPartition hp polys
    let out :=
      match fr with
      | some f => f.trim buckets.1
      | none => buckets.1
    let inside :=
      match bk with
      | some b => b.trim buckets.2
      | none => []
    out ++ inside

/-- `BSPNode.prototype.clone`: clone the plane, the children and the
polygons (whose clone re-derives their planes). -/
def BSPNode.clone : BSPNode → BSPNode
  | .mk hp ps fr bk =>
    .mk (hp.map Plane.clone) (ps.map Polygon.clone)
      (match fr with
       | some f => some f.clone
       | none => none)
      (match bk with
       | some b => some b.clone
       | none => none)

/-- `BSPNode.prototype.flip`.  The source clones the tree, flips the cloned
plane and polygons, recursively flips the children and swaps them.  Because
`Polygon.flip` itself begins with `clone`, flipping a cloned polygon equals
flipping the original (`polygon_clone_flip` below), so the embedding applies
the transforms directly.  A node without a hyperplane would throw in the
source (`copy.hyperPlane.flip()` on `null`); the operators below only flip
trees built by `Partition`, whose roots always carry a plane. -/
def BSPNode.flip : BSPNode → BSPNode
  | .mk hp ps fr bk =>
    .mk (hp.map Plane.flip) (ps.map Polygon.flip)
      (match bk with
       | some b => some b.flip
       | none => none)
      (match fr with
       | some f => some f.flip
       | none => none)

/-- `BSPNode.prototype.treeTrimSelf`: replace this node's polygons with
`tree.trim(polygons)` and recurse into both children. -/
def BSPNode.treeTrimSelf : BSPNode → BSPNode → BSPNode
  | .mk hp ps fr bk, tree =>
    .mk hp (tree.trim ps)
      (match fr with
       | some f => some (f.treeTrimSelf tree)
       | none => none)
      (match bk with
       | some b => some (b.treeTrimSelf tree)
       | none => none)

/-- The bucket accumulation of `BSPNode.Partition` lines 45-49: the source
calls `root.hyperPlane.bisect(poly, left, root.polygons, right,
root.polygons)`, so per polygon the `front` result is appended to `left`,
`samePlane` and `reversePlane` to the node's own polygon list, and `behind`
to `right`. -/
def partitionBuckets (pl : Plane) (polys : List Polygon) :
    List Polygon × List Polygon × List Polygon :=
  polys.foldl
    (fun acc q =>
      (acc.1 ++ (pl.bisect q).front,
       acc.2.1 ++ ((pl.bisect q).samePlane ++ (pl.bisect q).reversePlane),
       acc.2.2 ++ (pl.bisect q).behind))
    ([], [], [])

/-- `BSPNode.Partition`, in-place effect on the root node it is given.  The
source recursion has no structural termination measure (it recurses on the
bisection results), so the embedding carries explicit fuel; every theorem
below either supplies concrete sufficient fuel or holds for all fuel.  An
empty polygon list returns the root unchanged (the source early-returns
before touching it). -/
def partitionInto : Nat → List Polygon → BSPNode → BSPNode
  | 0, _, root => root
  | _ + 1, [], root => root
  | fuel + 1, p :: rest, root =>
    let hp := p.plane.clone
    let buckets := partitionBuckets hp (p :: rest)
    let fr :=
      if buckets.1.isEmpty then root.front
      else some (partitionInto fuel buckets.1 (root.front.getD emptyNode))
    let bk :=
      if buckets.2.2.isEmpty then root.behind
      else some (partitionInto fuel buckets.2.2 (root.behind.getD emptyNode))
    .mk (some hp) (root.polygons ++ buckets.2.1) fr bk

/-- `BSPNode.Partition`, return-value form: the source returns `undefined`
(modelled `none`) on an empty or absent polygon list, otherwise the
(mutated) root — the supplied tree if any, else a fresh node. -/
def BSPNode.Partition (fuel : Nat) (polys : List Polygon)
    (tree : Option BSPNode) : Option BSPNode :=
  if polys.isEmpty then none
  else some (partitionInto fuel polys (tree.getD emptyNode))

/-- `Geometry`, restricted to its polygon list: the position/scale/rotation
and matrix fields belong to the rendering layer the spec excludes, and no
boolean operator reads or writes them. -/
structure Geometry where
  polygons : List Polygon
deriving DecidableEq

/-- `BSPNode.prototype.toGeometry`. -/
def BSPNode.toGeometry (n : BSPNode) : Geometry := ⟨n.concatPolys⟩

/-- `BSPNode.Union` (bsp.js lines 184-201), with the in-place tree mutations
sequenced exactly as in the source. -/
def BSPNode.Union (fuel : Nat) (geo1 geo2 : Geometry) : Option Geometry :=
  match BSPNode.Partition fuel geo1.polygons none,
        BSPNode.Partition fuel geo2.polygons none with
  | some t1, some t2 =>
    let t1 := t1.treeTrimSelf t2
    let t2 := t2.treeTrimSelf t1
    let t2 := t2.flip
    let t2 := t2.treeTrimSelf t1
    let t2 := t2.flip
    let t1 := partitionInto fuel t2.concatPolys t1
    some t1.toGeometry
  | _, _ => none

/-- `BSPNode.Intersect` (bsp.js lines 216-231). -/
def BSPNode.Intersect (fuel : Nat) (geo1 geo2 : Geometry) : Option Geometry :=
  match BSPNode.Partition fuel geo1.polygons none,
        BSPNode.Partition fuel geo2.polygons none with
  | some t1, some t2 =>
    let t1 := t1.flip
    let t2 := t2.treeTrimSelf t1
    let t2 := t2.flip
    let t1 := t1.treeTrimSelf t2
    let t2 := t2.treeTrimSelf t1
    let t1 := partitionInto fuel t2.concatPolys t1
    let t1 := t1.flip
    some t1.toGeometry
  | _, _ => none

/-- `BSPNode.Subtract` (bsp.js lines 246-259). -/
def BSPNode.Subtract (fuel : Nat) (geo1 geo2 : Geometry) : Option Geometry :=
  match BSPNode.Partition fuel geo1.polygons none,
        BSPNode.Partition fuel geo2.polygons none with
  | some t1, some t2 =>
    let t1 := t1.flip
    let t1 := t1.treeTrimSelf t2
    let t2 := t2.treeTrimSelf t1
    let t2 := t2.flip
    let t2 := t2.treeTrimSelf t1
    let t2 := t2.flip
    let t1 := partitionInto fuel t2.concatPolys t1
    let t1 := t1.flip
    some t1.toGeometry
  | _, _ => none

/-- The caller-owned state visible across a boolean-operator call: the two
input `Geometry` objects.  In the source, every assignment inside `Union`,
`Intersect` and `Subtract` targets tree nodes created by `Partition` or
`clone` inside the call, and no method invoked on a `Polygon` or `Vector`
mutates it (all return new objects), so the caller state passes through the
call unchanged; the `run` wrappers below make that explicit. -/
structure CallerState where
  geo1 : Geometry
  geo2 : Geometry
deriving DecidableEq

/-- `Union` as observed by its caller: result plus post-call caller state. -/
def runUnion (fuel : Nat) (s : CallerState) : CallerState × Option Geometry :=
  (⟨s.geo1, s.geo2⟩, BSPNode.Union fuel s.geo1 s.geo2)

/-- `Intersect` as observed by its caller. -/
def runIntersect (fuel : Nat) (s : CallerState) :
    CallerState × Option Geometry :=
  (⟨s.geo1, s.geo2⟩, BSPNode.Intersect fuel s.geo1 s.geo2)

/-- `Subtract` as observed by its caller. -/
def runSubtract (fuel : Nat) (s : CallerState) :
    CallerState × Option Geometry :=
  (⟨s.geo1, s.geo2⟩, BSPNode.Subtract fuel s.geo1 s.geo2)

/-- Vertex `i` of a polygon (`polygon.vertices[i]` with an unused default
for out-of-range indices, which the loop never produces). -/
def vertAt (q : Polygon) (i : Nat) : Vec := q.vertices.getD i ⟨0, 0, 0⟩

/-- Classification of vertex `i` (`location[i]` in the source). -/
def locAt (pl : Plane) (q : Polygon) (i : Nat) : Loc :=
  (q.vertices.map pl.classify).getD i .plane

/-- What iteration `i` of the bisect loop appends to the front vertex list:
the vertex itself when it classifies `front` or `plane`, then the
intersection vertex `lerp(v[i], v[i+1], t)` with
`t = -(v[i]·normal + p) / ((v[i+1]-v[i])·normal)` when the consecutive pair
classifies front/back in either order. -/
def frontContrib (pl : Plane) (q : Polygon) (i : Nat) : List Vec :=
  (if locAt pl q i = .front ∨ locAt pl q i = .plane then [vertAt q i] else []) ++
    (if (locAt pl q i = .front ∧ locAt pl q ((i + 1) % q.vertices.length) = .back) ∨
        (locAt pl q i = .back ∧ locAt pl q ((i + 1) % q.vertices.length) = .front) then
      [(vertAt q i).lerp (vertAt q ((i + 1) % q.vertices.length))
        (-((vertAt q i).dot pl.normal + pl.p) /
          ((vertAt q ((i + 1) % q.vertices.length)).minus (vertAt q i)).dot pl.normal)]
     else [])

/-- What iteration `i` of the bisect loop appends to the back vertex list. -/
def backContrib (pl : Plane) (q : Polygon) (i : Nat) : List Vec :=
  (if locAt pl q i = .back ∨ locAt pl q i = .plane then [vertAt q i] else []) ++
    (if (locAt pl q i = .front ∧ locAt pl q ((i + 1) % q.vertices.length) = .back) ∨
        (locAt pl q i = .back ∧ locAt pl q ((i + 1) % q.vertices.length) = .front) then
      [(vertAt q i).lerp (vertAt q ((i + 1) % q.vertices.length))
        (-((vertAt q i).dot pl.normal + pl.p) /
          ((vertAt q ((i + 1) % q.vertices.length)).minus (vertAt q i)).dot pl.normal)]
     else [])

/-- Every vertex of the polygon is at signed distance at least `-epsQ` from
the plane: "in front of the plane or on it, within tolerance". -/
def vertsLB (pl : Plane) (q : Polygon) : Prop :=
  ∀ v ∈ q.vertices, -epsQ ≤ pl.dist v

/-- Every vertex of the polygon is at signed distance at most `epsQ` from
the plane: "behind the plane or on it, within tolerance". -/
def vertsUB (pl : Plane) (q : Polygon) : Prop :=
  ∀ v ∈ q.vertices, pl.dist v ≤ epsQ

/-- The structural invariant of claim C3, with the numeric comparisons read
through the `epsQ` tolerance that the code itself uses: a node either has no
plane and is an empty leaf, or all its polygons are coplanar with its
hyperplane within tolerance, every polygon anywhere in its front subtree
lies on or in front of the hyperplane, and every polygon anywhere in its
behind subtree lies on or behind it, recursively. -/
def BSPNode.inv : BSPNode → Prop
  | .mk none ps fr bk => ps = [] ∧ fr = none ∧ bk = none
  | .mk (some hp) ps fr bk =>
    (∀ q ∈ ps, vertsLB hp q ∧ vertsUB hp q) ∧
      (match fr with
       | some f => (∀ q ∈ f.concatPolys, vertsLB hp q) ∧ f.inv
       | none => True) ∧
      (match bk with
       | some b => (∀ q ∈ b.concatPolys, vertsUB hp q) ∧ b.inv
       | none => True)

@[simp] lemma loc_beq_plane_plane : (Loc.plane == Loc.plane) = true := rfl

@[simp] lemma loc_beq_front_plane : (Loc.front == Loc.plane) = false := rfl

@[simp] lemma loc_beq_back_plane : (Loc.back == Loc.plane) = false := rfl

@[simp] lemma loc_eq_front_back : (Loc.front = Loc.back) ↔ False := by decide

@[simp] lemma loc_eq_front_plane : (Loc.front = Loc.plane) ↔ False := by decide

@[simp] lemma loc_eq_back_front : (Loc.back = Loc.front) ↔ False := by decide

@[simp] lemma loc_eq_back_plane : (Loc.back = Loc.plane) ↔ False := by decide

@[simp] lemma loc_eq_plane_front : (Loc.plane = Loc.front) ↔ False := by decide

@[simp] lemma loc_eq_plane_back : (Loc.plane = Loc.back) ↔ False := by decide

/-- A sample color payload. -/
def colA : Color := ⟨1, 0, 0, 1⟩

/-- A second sample color payload. -/
def colB : Color := ⟨0, 1, 0, 1⟩

/-- The plane `z = 0` with upward normal. -/
def zPlane : Plane := ⟨⟨0, 0, 1⟩, 0⟩

/-- A triangle in the plane `z = 0`; its derived plane is exactly `zPlane`. -/
def triZ : Polygon := mkPolygon [⟨0, 0, 0⟩, ⟨1, 0, 0⟩, ⟨0, 1, 0⟩] colA

/-- A second triangle in the plane `z = 0`, disjoint from `triZ`. -/
def triZ2 : Polygon := mkPolygon [⟨2, 0, 0⟩, ⟨3, 0, 0⟩, ⟨2, 1, 0⟩] colA

/-- A triangle straddling the plane `z = 0`: one vertex below, two above. -/
def triS : Polygon := mkPolygon [⟨0, 0, -1⟩, ⟨1, 0, 1⟩, ⟨0, 1, 1⟩] colB

/-- A triangle in the plane `z = 5`, wound so its derived normal points
down: its plane is `⟨⟨0,0,-1⟩, 5⟩`. -/
def triHigh : Polygon := mkPolygon [⟨0, 0, 5⟩, ⟨0, 1, 5⟩, ⟨1, 0, 5⟩] colB

/-- A square straddling the plane `z = 0`, in the plane `y = 0` with derived
normal `(0,-1,0)`; both fragments of its split against `zPlane` have
unit-length derived cross products, keeping all square roots exact. -/
def quadS : Polygon :=
  mkPolygon [⟨0, 0, -1⟩, ⟨1, 0, -1⟩, ⟨1, 0, 1⟩, ⟨0, 0, 1⟩] colB

/-- The tree built by partitioning `[triZ]` from scratch. -/
def treeZ : BSPNode := partitionInto 1 [triZ] emptyNode

lemma plane_clone_eq (pl : Plane) : pl.clone = pl := rfl

lemma triZ_plane_eval : triZ.plane = zPlane := by
  norm_num [triZ, zPlane, mkPolygon, Plane.ofTriangle, Vec.minus, Vec.cross,
    Vec.unit, Vec.divide, Vec.magnitude, Vec.dot, ratSqrt,
    show sqrtNat (Int.toNat 1) = 1 from by decide, show sqrtNat 1 = 1 from by decide]
lemma triHigh_plane_eval : triHigh.plane = Plane.mk ⟨0, 0, -1⟩ 5 := by
  norm_num [triHigh, mkPolygon, Plane.ofTriangle, Vec.minus, Vec.cross,
    Vec.unit, Vec.divide, Vec.magnitude, Vec.dot, ratSqrt,
    show sqrtNat (Int.toNat 1) = 1 from by decide, show sqrtNat 1 = 1 from by decide]
lemma bisect_triZ_eval : zPlane.bisect triZ = ⟨[], [triZ], [], []⟩ := by
  norm_num [Plane.bisect, triZ, zPlane, mkPolygon, Plane.ofTriangle, Vec.minus,
    Vec.cross, Vec.unit, Vec.divide, Vec.magnitude, Vec.dot, ratSqrt,
    Plane.classify, Plane.dist, epsQ,
    show sqrtNat (Int.toNat 1) = 1 from by decide, show sqrtNat 1 = 1 from by decide]
lemma bisect_quadS_eval : zPlane.bisect quadS =
    ⟨[mkPolygon [⟨1, 0, 0⟩, ⟨1, 0, 1⟩, ⟨0, 0, 1⟩, ⟨0, 0, 0⟩] colB], [],
     [mkPolygon [⟨0, 0, -1⟩, ⟨1, 0, -1⟩, ⟨1, 0, 0⟩, ⟨0, 0, 0⟩] colB], []⟩ := by
  norm_num [Plane.bisect, bisectStep, quadS, zPlane, mkPolygon, Plane.ofTriangle,
    Vec.minus, Vec.cross, Vec.unit, Vec.divide, Vec.magnitude, Vec.dot,
    Vec.lerp, Vec.times, Vec.plus, Vec.clone, ratSqrt,
    Plane.classify, Plane.dist, epsQ,
    show List.range 4 = [0, 1, 2, 3] from rfl,
    show sqrtNat (Int.toNat 1) = 1 from by decide, show sqrtNat 1 = 1 from by decide]
lemma foldl_append2 {α β : Type} (f g : α → List β) :
    ∀ (l : List α) (a b : List β),
      l.foldl (fun acc x => (acc.1 ++ f x, acc.2 ++ g x)) (a, b) =
        (a ++ l.flatMap f, b ++ l.flatMap g)
  | [], a, b => by simp
  | x :: xs, a, b => by
    simp only [List.foldl_cons, List.flatMap_cons]
    rw [foldl_append2 f g xs]
    simp [List.append_assoc]

lemma foldl_append3 {α β : Type} (f g h : α → List β) :
    ∀ (l : List α) (a b c : List β),
      l.foldl (fun acc x => (acc.1 ++ f x, acc.2.1 ++ g x, acc.2.2 ++ h x))
          (a, b, c) =
        (a ++ l.flatMap f, b ++ l.flatMap g, c ++ l.flatMap h)
  | [], a, b, c => by simp
  | x :: xs, a, b, c => by
    simp only [List.foldl_cons, List.flatMap_cons]
    rw [foldl_append3 f g h xs]
    simp [List.append_assoc]

lemma foldl_and_eq_all (f : Loc → Bool) :
    ∀ (l : List Loc) (b : Bool),
      l.foldl (fun acc x => acc && f x) b = (b && l.all f)
  | [], b => by simp
  | x :: xs, b => by
    simp only [List.foldl_cons, List.all_cons]
    rw [foldl_and_eq_all f xs]
    cases b <;> cases f x <;> simp

lemma epsQ_pos : 0 < epsQ := by norm_num [epsQ]

lemma classify_front_iff (pl : Plane) (v : Vec) :
    pl.classify v = .front ↔ epsQ < pl.dist v := by
  have he := epsQ_pos
  unfold Plane.classify
  split_ifs with h1 h2
  · simpa using h1
  · simp only [loc_eq_back_front, false_iff, not_lt]
    linarith
  · push_neg at h1
    simp only [loc_eq_plane_front, false_iff, not_lt]
    exact h1

lemma classify_back_iff (pl : Plane) (v : Vec) :
    pl.classify v = .back ↔ pl.dist v < -epsQ := by
  have he := epsQ_pos
  unfold Plane.classify
  split_ifs with h1 h2
  · simp only [loc_eq_front_back, false_iff, not_lt]
    linarith
  · simpa using h2
  · push_neg at h2
    simp only [loc_eq_plane_back, false_iff, not_lt]
    exact h2

lemma classify_plane_iff (pl : Plane) (v : Vec) :
    pl.classify v = .plane ↔ -epsQ ≤ pl.dist v ∧ pl.dist v ≤ epsQ := by
  unfold Plane.classify
  split_ifs with h1 h2
  · simp only [loc_eq_front_plane, false_iff, not_and, not_le]
    intro _
    exact h1
  · simp only [loc_eq_back_plane, false_iff, not_and, not_le]
    intro hA
    linarith
  · push_neg at h1 h2
    simpa using ⟨h2, h1⟩

lemma dot_comm (a b : Vec) : a.dot b = b.dot a := by
  unfold Vec.dot; ring

lemma minus_dot (a b n : Vec) : (a.minus b).dot n = a.dot n - b.dot n := by
  unfold Vec.minus Vec.dot; ring

lemma dist_lerp (pl : Plane) (a b : Vec) (t : ℚ) :
    pl.dist (a.lerp b t) = (1 - t) * pl.dist a + t * pl.dist b := by
  unfold Plane.dist Vec.lerp Vec.plus Vec.times Vec.dot; ring

lemma dot_add_p (pl : Plane) (v : Vec) :
    v.dot pl.normal + pl.p = pl.dist v := by
  unfold Plane.dist; rw [dot_comm]

/-- The intersection vertex computed by the bisect loop lies exactly on the
bisecting plane (exactly, because the embedding computes in `ℚ`). -/
lemma dist_bisect_point (pl : Plane) (a b : Vec)
    (h : pl.dist a ≠ pl.dist b) :
    pl.dist (a.lerp b
      (-(a.dot pl.normal + pl.p) / (b.minus a).dot pl.normal)) = 0 := by
  have hd : (b.minus a).dot pl.normal = pl.dist b - pl.dist a := by
    rw [minus_dot]
    unfold Plane.dist
    rw [dot_comm pl.normal b, dot_comm pl.normal a]
    ring
  have hne : pl.dist b - pl.dist a ≠ 0 := sub_ne_zero.mpr (Ne.symm h)
  rw [dist_lerp, dot_add_p, hd]
  field_simp
  ring

/-- Bounds on the bisect interpolation parameter when the two endpoints are
classified on strictly opposite sides of the plane. -/
lemma tBounds (d1 d2 : ℚ)
    (h : (epsQ < d1 ∧ d2 < -epsQ) ∨ (d1 < -epsQ ∧ epsQ < d2)) :
    0 ≤ -d1 / (d2 - d1) ∧ -d1 / (d2 - d1) ≤ 1 := by
  have he := epsQ_pos
  rcases h with ⟨h1, h2⟩ | ⟨h1, h2⟩
  · have hden : d1 - d2 > 0 := by linarith
    have hrw : -d1 / (d2 - d1) = d1 / (d1 - d2) := by
      rw [show d2 - d1 = -(d1 - d2) from by ring, div_neg, neg_div, neg_neg]
    rw [hrw]
    constructor
    · exact div_nonneg (by linarith) (by linarith)
    · rw [div_le_one hden]; linarith
  · have hden : d2 - d1 > 0 := by linarith
    constructor
    · exact div_nonneg (by linarith) (by linarith)
    · rw [div_le_one hden]; linarith

lemma vec_clone_eq (v : Vec) : v.clone = v := rfl

lemma locAt_eq (pl : Plane) (q : Polygon) (i : Nat)
    (h : i < q.vertices.length) : locAt pl q i = pl.classify (vertAt q i) := by
  unfold locAt vertAt
  rw [List.getD_eq_getElem?_getD, List.getD_eq_getElem?_getD,
    List.getElem?_map, List.getElem?_eq_getElem h]
  simp

lemma vertAt_mem (q : Polygon) (i : Nat) (h : i < q.vertices.length) :
    vertAt q i ∈ q.vertices := by
  unfold vertAt
  rw [List.getD_eq_getElem?_getD, List.getElem?_eq_getElem h]
  exact List.getElem_mem h

lemma bisectStep_eq (pl : Plane) (q : Polygon) (acc : List Vec × List Vec)
    (i : Nat) :
    bisectStep pl q acc i =
      (acc.1 ++ frontContrib pl q i, acc.2 ++ backContrib pl q i) := by
  unfold bisectStep frontContrib backContrib vertAt locAt
  rcases h1 : (q.vertices.map pl.classify).getD i Loc.plane with _ | _ | _ <;>
    rcases h2 : (q.vertices.map pl.classify).getD
        ((i + 1) % q.vertices.length) Loc.plane with _ | _ | _ <;>
    simp only [h1, h2] <;> simp [vec_clone_eq]

lemma bisect_loop (pl : Plane) (q : Polygon) :
    (List.range q.vertices.length).foldl (bisectStep pl q) ([], []) =
      ((List.range q.vertices.length).flatMap (frontContrib pl q),
       (List.range q.vertices.length).flatMap (backContrib pl q)) := by
  rw [List.foldl_ext (bisectStep pl q)
    (fun acc i => (acc.1 ++ frontContrib pl q i, acc.2 ++ backContrib pl q i))
    ([], []) (fun acc i _ => bisectStep_eq pl q acc i)]
  rw [foldl_append2]
  simp

lemma isCoplanar_iff (pl : Plane) (q : Polygon) :
    ((q.vertices.map pl.classify).foldl
        (fun acc x => acc && (x == Loc.plane)) true = true) ↔
      ∀ v ∈ q.vertices, pl.classify v = .plane := by
  rw [foldl_and_eq_all]
  simp

/-- `bisect` in the all-coplanar case: the polygon goes whole into
`samePlane` or `reversePlane` according to the sign of the normal dot. -/
lemma bisect_eq_coplanar (pl : Plane) (q : Polygon)
    (h : ∀ v ∈ q.vertices, pl.classify v = .plane) :
    pl.bisect q =
      if pl.normal.dot q.plane.normal > 0 then ⟨[], [q], [], []⟩
      else ⟨[], [], [], [q]⟩ := by
  unfold Plane.bisect
  rw [if_pos ((isCoplanar_iff pl q).mpr h)]

/-- `bisect` in the mixed case: the loop produces exactly the per-index
front and back contributions, and a polygon is emitted on each side only
when its vertex list has at least three entries. -/
lemma bisect_eq_mixed (pl : Plane) (q : Polygon)
    (h : ¬ ∀ v ∈ q.vertices, pl.classify v = .plane) :
    pl.bisect q =
      ⟨if 3 ≤ ((List.range q.vertices.length).flatMap (frontContrib pl q)).length
        then [mkPolygon ((List.range q.vertices.length).flatMap (frontContrib pl q)) q.color]
        else [],
       [],
       if 3 ≤ ((List.range q.vertices.length).flatMap (backContrib pl q)).length
        then [mkPolygon ((List.range q.vertices.length).flatMap (backContrib pl q)) q.color]
        else [],
       []⟩ := by
  unfold Plane.bisect
  rw [if_neg (fun hc => h ((isCoplanar_iff pl q).mp hc)), bisect_loop]

lemma mkPolygon_vertices (vs : List Vec) (c : Color) :
    (mkPolygon vs c).vertices = vs := rfl

lemma mkPolygon_color (vs : List Vec) (c : Color) :
    (mkPolygon vs c).color = c := rfl

lemma mod_lt_of_lt {i n : Nat} (h : i < n) : (i + 1) % n < n :=
  Nat.mod_lt _ (Nat.lt_of_le_of_lt (Nat.zero_le i) h)

/-- Rewrites the interpolation parameter of the bisect loop in terms of the
signed distances of its two endpoints. -/
lemma tExpr_eq (pl : Plane) (a b : Vec) :
    -(a.dot pl.normal + pl.p) / (b.minus a).dot pl.normal =
      -(pl.dist a) / (pl.dist b - pl.dist a) := by
  rw [dot_add_p]
  congr 1
  rw [minus_dot]
  unfold Plane.dist
  rw [dot_comm pl.normal b, dot_comm pl.normal a]
  ring

lemma frontContrib_LB (pl : Plane) (q : Polygon) (i : Nat)
    (hi : i < q.vertices.length) :
    ∀ v ∈ frontContrib pl q i, -epsQ ≤ pl.dist v := by
  have he := epsQ_pos
  have hj := mod_lt_of_lt hi
  intro v hv
  unfold frontContrib at hv
  rw [locAt_eq pl q i hi, locAt_eq pl q _ hj] at hv
  rcases List.mem_append.mp hv with hv | hv
  · split_ifs at hv with hc
    · rcases List.mem_singleton.mp hv with rfl
      rcases hc with hc | hc
      · have := (classify_front_iff pl _).mp hc
        linarith
      · exact ((classify_plane_iff pl _).mp hc).1
    · simp at hv
  · split_ifs at hv with hc
    · rcases List.mem_singleton.mp hv with rfl
      have hne : pl.dist (vertAt q i) ≠ pl.dist (vertAt q ((i + 1) % q.vertices.length)) := by
        rcases hc with ⟨hc1, hc2⟩ | ⟨hc1, hc2⟩
        · have h1 := (classify_front_iff pl _).mp hc1
          have h2 := (classify_back_iff pl _).mp hc2
          intro hx
          rw [hx] at h1
          linarith
        · have h1 := (classify_back_iff pl _).mp hc1
          have h2 := (classify_front_iff pl _).mp hc2
          intro hx
          rw [hx] at h1
          linarith
      rw [dist_bisect_point pl _ _ hne]
      linarith
    · simp at hv

lemma backContrib_UB (pl : Plane) (q : Polygon) (i : Nat)
    (hi : i < q.vertices.length) :
    ∀ v ∈ backContrib pl q i, pl.dist v ≤ epsQ := by
  have he := epsQ_pos
  have hj := mod_lt_of_lt hi
  intro v hv
  unfold backContrib at hv
  rw [locAt_eq pl q i hi, locAt_eq pl q _ hj] at hv
  rcases List.mem_append.mp hv with hv | hv
  · split_ifs at hv with hc
    · rcases List.mem_singleton.mp hv with rfl
      rcases hc with hc | hc
      · have := (classify_back_iff pl _).mp hc
        linarith
      · exact ((classify_plane_iff pl _).mp hc).2
    · simp at hv
  · split_ifs at hv with hc
    · rcases List.mem_singleton.mp hv with rfl
      have hne : pl.dist (vertAt q i) ≠ pl.dist (vertAt q ((i + 1) % q.vertices.length)) := by
        rcases hc with ⟨hc1, hc2⟩ | ⟨hc1, hc2⟩
        · have h1 := (classify_front_iff pl _).mp hc1
          have h2 := (classify_back_iff pl _).mp hc2
          intro hx
          rw [hx] at h1
          linarith
        · have h1 := (classify_back_iff pl _).mp hc1
          have h2 := (classify_front_iff pl _).mp hc2
          intro hx
          rw [hx] at h1
          linarith
      rw [dist_bisect_point pl _ _ hne]
      linarith
    · simp at hv

/-- Vertices contributed by one loop iteration are original vertices or
convex interpolations of two original vertices, so any vertex predicate
closed under such interpolation is preserved. -/
lemma contrib_pred (P : Vec → Prop)
    (hconv : ∀ a b t, P a → P b → 0 ≤ t → t ≤ 1 → P (a.lerp b t))
    (pl : Plane) (q : Polygon) (hq : ∀ v ∈ q.vertices, P v) (i : Nat)
    (hi : i < q.vertices.length) :
    ∀ v ∈ frontContrib pl q i ++ backContrib pl q i, P v := by
  have hj := mod_lt_of_lt hi
  have hmem1 := vertAt_mem q i hi
  have hmem2 := vertAt_mem q _ hj
  have hpt : ∀ hc :
      (locAt pl q i = .front ∧ locAt pl q ((i + 1) % q.vertices.length) = .back) ∨
        (locAt pl q i = .back ∧ locAt pl q ((i + 1) % q.vertices.length) = .front),
      P ((vertAt q i).lerp (vertAt q ((i + 1) % q.vertices.length))
        (-((vertAt q i).dot pl.normal + pl.p) /
          ((vertAt q ((i + 1) % q.vertices.length)).minus (vertAt q i)).dot pl.normal)) := by
    intro hc
    rw [locAt_eq pl q i hi, locAt_eq pl q _ hj] at hc
    have hb : (epsQ < pl.dist (vertAt q i) ∧
          pl.dist (vertAt q ((i + 1) % q.vertices.length)) < -epsQ) ∨
        (pl.dist (vertAt q i) < -epsQ ∧
          epsQ < pl.dist (vertAt q ((i + 1) % q.vertices.length))) := by
      rcases hc with ⟨hc1, hc2⟩ | ⟨hc1, hc2⟩
      · exact .inl ⟨(classify_front_iff pl _).mp hc1, (classify_back_iff pl _).mp hc2⟩
      · exact .inr ⟨(classify_back_iff pl _).mp hc1, (classify_front_iff pl _).mp hc2⟩
    have ht := tBounds _ _ hb
    rw [tExpr_eq]
    exact hconv _ _ _ (hq _ hmem1) (hq _ hmem2) ht.1 ht.2
  intro v hv
  rcases List.mem_append.mp hv with hv | hv
  · unfold frontContrib at hv
    rcases List.mem_append.mp hv with hv | hv
    · split_ifs at hv with hc
      · rcases List.mem_singleton.mp hv with rfl
        exact hq _ hmem1
      · simp at hv
    · split_ifs at hv with hc
      · rcases List.mem_singleton.mp hv with rfl
        exact hpt hc
      · simp at hv
  · unfold backContrib at hv
    rcases List.mem_append.mp hv with hv | hv
    · split_ifs at hv with hc
      · rcases List.mem_singleton.mp hv with rfl
        exact hq _ hmem1
      · simp at hv
    · split_ifs at hv with hc
      · rcases List.mem_singleton.mp hv with rfl
        exact hpt hc
      · simp at hv

lemma mem_ite_singleton {α : Type} {c : Prop} [Decidable c] {x a : α}
    (h : a ∈ (if c then [x] else [])) : a = x ∧ c := by
  split_ifs at h with hc
  · exact ⟨List.mem_singleton.mp h, hc⟩
  · simp at h

lemma mem_mixed_front {pl : Plane} {q w : Polygon}
    (hc : ¬ ∀ v ∈ q.vertices, pl.classify v = .plane)
    (h : w ∈ (pl.bisect q).front) :
    w = mkPolygon ((List.range q.vertices.length).flatMap (frontContrib pl q)) q.color := by
  rw [bisect_eq_mixed pl q hc] at h
  exact (mem_ite_singleton h).1

lemma mem_mixed_behind {pl : Plane} {q w : Polygon}
    (hc : ¬ ∀ v ∈ q.vertices, pl.classify v = .plane)
    (h : w ∈ (pl.bisect q).behind) :
    w = mkPolygon ((List.range q.vertices.length).flatMap (backContrib pl q)) q.color := by
  rw [bisect_eq_mixed pl q hc] at h
  exact (mem_ite_singleton h).1

lemma mixed_coplanar_empty {pl : Plane} {q : Polygon}
    (hc : ¬ ∀ v ∈ q.vertices, pl.classify v = .plane) :
    (pl.bisect q).samePlane = [] ∧ (pl.bisect q).reversePlane = [] := by
  rw [bisect_eq_mixed pl q hc]
  exact ⟨rfl, rfl⟩

lemma coplanar_split_empty {pl : Plane} {q : Polygon}
    (hc : ∀ v ∈ q.vertices, pl.classify v = .plane) :
    (pl.bisect q).front = [] ∧ (pl.bisect q).behind = [] := by
  rw [bisect_eq_coplanar pl q hc]
  split_ifs <;> exact ⟨rfl, rfl⟩

lemma mem_coplanar_eq {pl : Plane} {q w : Polygon}
    (hc : ∀ v ∈ q.vertices, pl.classify v = .plane)
    (h : w ∈ (pl.bisect q).front ∨ w ∈ (pl.bisect q).samePlane ∨
      w ∈ (pl.bisect q).behind ∨ w ∈ (pl.bisect q).reversePlane) :
    w = q := by
  rw [bisect_eq_coplanar pl q hc] at h
  split_ifs at h <;> rcases h with h | h | h | h <;> simp at h <;> exact h

/-- Every polygon `bisect` emits, in any bucket, carries the input
polygon's color. -/
lemma bisect_color (pl : Plane) (q w : Polygon)
    (h : w ∈ (pl.bisect q).front ∨ w ∈ (pl.bisect q).samePlane ∨
      w ∈ (pl.bisect q).behind ∨ w ∈ (pl.bisect q).reversePlane) :
    w.color = q.color := by
  by_cases hc : ∀ v ∈ q.vertices, pl.classify v = .plane
  · rw [mem_coplanar_eq hc h]
  · rcases h with h | h | h | h
    · rw [mem_mixed_front hc h, mkPolygon_color]
    · rw [(mixed_coplanar_empty hc).1] at h
      simp at h
    · rw [mem_mixed_behind hc h, mkPolygon_color]
    · rw [(mixed_coplanar_empty hc).2] at h
      simp at h

/-- Every front fragment of `bisect` lies on or in front of the bisecting
plane, within the `epsQ` tolerance. -/
lemma bisect_front_LB (pl : Plane) (q : Polygon) :
    ∀ w ∈ (pl.bisect q).front, vertsLB pl w := by
  intro w hw
  by_cases hc : ∀ v ∈ q.vertices, pl.classify v = .plane
  · rw [(coplanar_split_empty hc).1] at hw
    simp at hw
  · rw [mem_mixed_front hc hw]
    intro v hv
    rw [mkPolygon_vertices] at hv
    rcases List.mem_flatMap.mp hv with ⟨i, hi, hvi⟩
    exact frontContrib_LB pl q i (List.mem_range.mp hi) v hvi

/-- Every behind fragment of `bisect` lies on or behind the bisecting
plane, within the `epsQ` tolerance. -/
lemma bisect_behind_UB (pl : Plane) (q : Polygon) :
    ∀ w ∈ (pl.bisect q).behind, vertsUB pl w := by
  intro w hw
  by_cases hc : ∀ v ∈ q.vertices, pl.classify v = .plane
  · rw [(coplanar_split_empty hc).2] at hw
    simp at hw
  · rw [mem_mixed_behind hc hw]
    intro v hv
    rw [mkPolygon_vertices] at hv
    rcases List.mem_flatMap.mp hv with ⟨i, hi, hvi⟩
    exact backContrib_UB pl q i (List.mem_range.mp hi) v hvi

/-- Every polygon routed to `samePlane` or `reversePlane` is coplanar with
the bisecting plane, within the `epsQ` tolerance. -/
lemma bisect_coplanar_both (pl : Plane) (q w : Polygon)
    (hw : w ∈ (pl.bisect q).samePlane ∨ w ∈ (pl.bisect q).reversePlane) :
    vertsLB pl w ∧ vertsUB pl w := by
  by_cases hc : ∀ v ∈ q.vertices, pl.classify v = .plane
  · have hwq : w = q := mem_coplanar_eq hc (by tauto)
    subst hwq
    exact ⟨fun v hv => ((classify_plane_iff pl v).mp (hc v hv)).1,
           fun v hv => ((classify_plane_iff pl v).mp (hc v hv)).2⟩
  · rcases hw with hw | hw
    · rw [(mixed_coplanar_empty hc).1] at hw
      simp at hw
    · rw [(mixed_coplanar_empty hc).2] at hw
      simp at hw

/-- Any vertex predicate closed under convex interpolation and holding on
the input polygon's vertices holds on the vertices of every bucket's
output polygons. -/
lemma bisect_pred (P : Vec → Prop)
    (hconv : ∀ a b t, P a → P b → 0 ≤ t → t ≤ 1 → P (a.lerp b t))
    (pl : Plane) (q : Polygon) (hq : ∀ v ∈ q.vertices, P v) (w : Polygon)
    (hw : w ∈ (pl.bisect q).front ∨ w ∈ (pl.bisect q).samePlane ∨
      w ∈ (pl.bisect q).behind ∨ w ∈ (pl.bisect q).reversePlane) :
    ∀ v ∈ w.vertices, P v := by
  by_cases hc : ∀ v ∈ q.vertices, pl.classify v = .plane
  · rw [mem_coplanar_eq hc hw]
    exact hq
  · rcases hw with hw | hw | hw | hw
    · rw [mem_mixed_front hc hw]
      intro v hv
      rw [mkPolygon_vertices] at hv
      rcases List.mem_flatMap.mp hv with ⟨i, hi, hvi⟩
      exact contrib_pred P hconv pl q hq i (List.mem_range.mp hi) v
        (List.mem_append.mpr (.inl hvi))
    · rw [(mixed_coplanar_empty hc).1] at hw
      simp at hw
    · rw [mem_mixed_behind hc hw]
      intro v hv
      rw [mkPolygon_vertices] at hv
      rcases List.mem_flatMap.mp hv with ⟨i, hi, hvi⟩
      exact contrib_pred P hconv pl q hq i (List.mem_range.mp hi) v
        (List.mem_append.mpr (.inr hvi))
    · rw [(mixed_coplanar_empty hc).2] at hw
      simp at hw

/-- The trim bucket loop routes, per input polygon, the `front` and
`samePlane` bisect results to the first ("outside") bucket and the `behind`
and `reversePlane` results to the second ("inside") bucket. -/
lemma trimPartition_eq (pl : Plane) (polys : List Polygon) :
    trimPartition pl polys =
      (polys.flatMap (fun q => (pl.bisect q).front ++ (pl.bisect q).samePlane),
       polys.flatMap (fun q => (pl.bisect q).behind ++ (pl.bisect q).reversePlane)) := by
  unfold trimPartition
  rw [foldl_append2 (fun q => (pl.bisect q).front ++ (pl.bisect q).samePlane)
    (fun q => (pl.bisect q).behind ++ (pl.bisect q).reversePlane) polys [] []]
  simp

/-- The partition bucket loop routes, per input polygon, `front` to the
left list, `samePlane`/`reversePlane` to the node polygon list, and
`behind` to the right list. -/
lemma partitionBuckets_eq (pl : Plane) (polys : List Polygon) :
    partitionBuckets pl polys =
      (polys.flatMap (fun q => (pl.bisect q).front),
       polys.flatMap (fun q => (pl.bisect q).samePlane ++ (pl.bisect q).reversePlane),
       polys.flatMap (fun q => (pl.bisect q).behind)) := by
  unfold partitionBuckets
  rw [foldl_append3 (fun q => (pl.bisect q).front)
    (fun q => (pl.bisect q).samePlane ++ (pl.bisect q).reversePlane)
    (fun q => (pl.bisect q).behind) polys [] [] []]
  simp

lemma partitionInto_succ (fuel : Nat) (p : Polygon) (rest : List Polygon)
    (root : BSPNode) :
    partitionInto (fuel + 1) (p :: rest) root =
      .mk (some p.plane.clone)
        (root.polygons ++ (partitionBuckets p.plane.clone (p :: rest)).2.1)
        (if (partitionBuckets p.plane.clone (p :: rest)).1.isEmpty then root.front
         else some (partitionInto fuel (partitionBuckets p.plane.clone (p :: rest)).1
           (root.front.getD emptyNode)))
        (if (partitionBuckets p.plane.clone (p :: rest)).2.2.isEmpty then root.behind
         else some (partitionInto fuel (partitionBuckets p.plane.clone (p :: rest)).2.2
           (root.behind.getD emptyNode))) := rfl

lemma concatPolys_mk (hp : Option Plane) (ps : List Polygon)
    (fr bk : Option BSPNode) :
    (BSPNode.mk hp ps fr bk).concatPolys =
      (ps ++
        (match fr with
         | some f => f.concatPolys
         | none => [])) ++
        (match bk with
         | some b => b.concatPolys
         | none => []) := by
  rw [BSPNode.concatPolys.eq_def]
  dsimp only
  rw [List.map_id']

lemma emptyNode_concat : emptyNode.concatPolys = [] := rfl

lemma LB_conv (pl : Plane) : ∀ a b t, -epsQ ≤ pl.dist a → -epsQ ≤ pl.dist b →
    0 ≤ t → t ≤ 1 → -epsQ ≤ pl.dist (a.lerp b t) := by
  intro a b t ha hb ht0 ht1
  rw [dist_lerp]
  nlinarith [mul_le_mul_of_nonneg_left ha (by linarith : (0 : ℚ) ≤ 1 - t),
    mul_le_mul_of_nonneg_left hb ht0]

lemma UB_conv (pl : Plane) : ∀ a b t, pl.dist a ≤ epsQ → pl.dist b ≤ epsQ →
    0 ≤ t → t ≤ 1 → pl.dist (a.lerp b t) ≤ epsQ := by
  intro a b t ha hb ht0 ht1
  rw [dist_lerp]
  nlinarith [mul_le_mul_of_nonneg_left ha (by linarith : (0 : ℚ) ≤ 1 - t),
    mul_le_mul_of_nonneg_left hb ht0]

/-- Fresh partitioning preserves any convex-closed vertex predicate: every
polygon stored anywhere in the resulting tree has all vertices satisfying a
predicate that held on all input vertices and is closed under convex
interpolation. -/
lemma partition_pred (P : Vec → Prop)
    (hconv : ∀ a b t, P a → P b → 0 ≤ t → t ≤ 1 → P (a.lerp b t)) :
    ∀ (fuel : Nat) (polys : List Polygon),
      (∀ q ∈ polys, ∀ v ∈ q.vertices, P v) →
      ∀ w ∈ (partitionInto fuel polys emptyNode).concatPolys, ∀ v ∈ w.vertices, P v := by
  intro fuel
  induction fuel with
  | zero =>
    intro polys _ w hw
    rw [show partitionInto 0 polys emptyNode = emptyNode from rfl,
      emptyNode_concat] at hw
    simp at hw
  | succ fuel ih =>
    intro polys hpolys w hw
    match polys with
    | [] =>
      rw [show partitionInto (fuel + 1) [] emptyNode = emptyNode from rfl,
        emptyNode_concat] at hw
      simp at hw
    | p :: rest =>
      rw [partitionInto_succ, concatPolys_mk] at hw
      rw [partitionBuckets_eq] at hw
      have hbucket : ∀ q ∈ p :: rest, ∀ w',
          (w' ∈ (p.plane.clone.bisect q).front ∨
            w' ∈ (p.plane.clone.bisect q).samePlane ∨
            w' ∈ (p.plane.clone.bisect q).behind ∨
            w' ∈ (p.plane.clone.bisect q).reversePlane) →
          ∀ v ∈ w'.vertices, P v := fun q hq w' hw' =>
        bisect_pred P hconv p.plane.clone q (hpolys q hq) w' hw'
      have hleft : ∀ q ∈ (p :: rest).flatMap (fun q => (p.plane.clone.bisect q).front),
          ∀ v ∈ q.vertices, P v := by
        intro q hq
        rcases List.mem_flatMap.mp hq with ⟨r, hr, hqr⟩
        exact hbucket r hr q (.inl hqr)
      have hright : ∀ q ∈ (p :: rest).flatMap (fun q => (p.plane.clone.bisect q).behind),
          ∀ v ∈ q.vertices, P v := by
        intro q hq
        rcases List.mem_flatMap.mp hq with ⟨r, hr, hqr⟩
        exact hbucket r hr q (.inr (.inr (.inl hqr)))
      rcases List.mem_append.mp hw with hw | hw
      · rcases List.mem_append.mp hw with hw | hw
        · rw [show emptyNode.polygons = [] from rfl] at hw
          simp only [List.nil_append] at hw
          rcases List.mem_flatMap.mp hw with ⟨r, hr, hqr⟩
          rcases List.mem_append.mp hqr with hqr | hqr
          · exact hbucket r hr w (.inr (.inl hqr))
          · exact hbucket r hr w (.inr (.inr (.inr hqr)))
        · rw [show emptyNode.front = none from rfl] at hw
          split_ifs at hw with hem
          · simp at hw
          · rw [show (none : Option BSPNode).getD emptyNode = emptyNode from rfl] at hw
            exact ih _ hleft w hw
      · rw [show emptyNode.behind = none from rfl] at hw
        split_ifs at hw with hem
        · simp at hw
        · rw [show (none : Option BSPNode).getD emptyNode = emptyNode from rfl] at hw
          exact ih _ hright w hw

lemma inv_mk_none (ps : List Polygon) (fr bk : Option BSPNode) :
    (BSPNode.mk none ps fr bk).inv ↔ ps = [] ∧ fr = none ∧ bk = none := by
  rw [BSPNode.inv.eq_def]

lemma inv_mk_some (hp : Plane) (ps : List Polygon) (fr bk : Option BSPNode) :
    (BSPNode.mk (some hp) ps fr bk).inv ↔
      (∀ q ∈ ps, vertsLB hp q ∧ vertsUB hp q) ∧
        (match fr with
         | some f => (∀ q ∈ f.concatPolys, vertsLB hp q) ∧ f.inv
         | none => True) ∧
        (match bk with
         | some b => (∀ q ∈ b.concatPolys, vertsUB hp q) ∧ b.inv
         | none => True) := by
  rw [BSPNode.inv.eq_def]

lemma emptyNode_inv : emptyNode.inv := by
  rw [emptyNode, inv_mk_none]
  exact ⟨rfl, rfl, rfl⟩

/-- The structural invariant holds on every tree built by partitioning a
polygon list into a fresh node, for any fuel. -/
lemma partitionInto_inv : ∀ (fuel : Nat) (polys : List Polygon),
    (partitionInto fuel polys emptyNode).inv := by
  intro fuel
  induction fuel with
  | zero =>
    intro polys
    exact emptyNode_inv
  | succ fuel ih =>
    intro polys
    match polys with
    | [] => exact emptyNode_inv
    | p :: rest =>
      rw [partitionInto_succ, partitionBuckets_eq,
        show emptyNode.polygons = [] from rfl,
        show emptyNode.front = none from rfl,
        show emptyNode.behind = none from rfl, inv_mk_some]
      have hcop : ∀ q ∈ ([] : List Polygon) ++
          (p :: rest).flatMap
            (fun q => (p.plane.clone.bisect q).samePlane ++
              (p.plane.clone.bisect q).reversePlane),
          vertsLB p.plane.clone q ∧ vertsUB p.plane.clone q := by
        intro q hq
        simp only [List.nil_append] at hq
        rcases List.mem_flatMap.mp hq with ⟨r, hr, hqr⟩
        rcases List.mem_append.mp hqr with hqr | hqr
        · exact bisect_coplanar_both p.plane.clone r q (.inl hqr)
        · exact bisect_coplanar_both p.plane.clone r q (.inr hqr)
      refine ⟨hcop, ?_, ?_⟩
      · split_ifs with hem
        · exact trivial
        · refine ⟨?_, ih _⟩
          rw [show (none : Option BSPNode).getD emptyNode = emptyNode from rfl]
          intro q hq
          exact partition_pred (fun v => -epsQ ≤ p.plane.clone.dist v)
            (LB_conv p.plane.clone) fuel _
            (by
              intro r hr v hv
              rcases List.mem_flatMap.mp hr with ⟨s, hs, hrs⟩
              exact bisect_front_LB p.plane.clone s r hrs v hv)
            q hq
      · split_ifs with hem
        · exact trivial
        · refine ⟨?_, ih _⟩
          rw [show (none : Option BSPNode).getD emptyNode = emptyNode from rfl]
          intro q hq
          exact partition_pred (fun v => p.plane.clone.dist v ≤ epsQ)
            (UB_conv p.plane.clone) fuel _
            (by
              intro r hr v hv
              rcases List.mem_flatMap.mp hr with ⟨s, hs, hrs⟩
              exact bisect_behind_UB p.plane.clone s r hrs v hv)
            q hq

lemma flatMap_eq_self {α : Type} (f : α → List α) :
    ∀ (l : List α), (∀ q ∈ l, f q = [q]) → l.flatMap f = l
  | [], _ => rfl
  | x :: xs, h => by
    rw [List.flatMap_cons, h x (by simp), flatMap_eq_self f xs (fun q hq => h q (by simp [hq]))]
    rfl

lemma flatMap_eq_nil {α β : Type} (f : α → List β) :
    ∀ (l : List α), (∀ q ∈ l, f q = []) → l.flatMap f = []
  | [], _ => rfl
  | x :: xs, h => by
    rw [List.flatMap_cons, h x (by simp), flatMap_eq_nil f xs (fun q hq => h q (by simp [hq]))]
    rfl

/-- A polygon whose vertices all classify `plane` passes through `bisect`
whole: one copy lands in `samePlane` or `reversePlane` (depending on
orientation), and `front`/`behind` receive nothing. -/
lemma bisect_coplanar_whole (pl : Plane) (q : Polygon)
    (hc : ∀ v ∈ q.vertices, pl.classify v = .plane) :
    (pl.bisect q).samePlane ++ (pl.bisect q).reversePlane = [q] ∧
      (pl.bisect q).front = [] ∧ (pl.bisect q).behind = [] := by
  rw [bisect_eq_coplanar pl q hc]
  split_ifs <;> exact ⟨rfl, rfl, rfl⟩

lemma triZ_allplane : ∀ v ∈ triZ.vertices, zPlane.classify v = Loc.plane := by
  intro v hv
  simp [triZ, mkPolygon] at hv
  rcases hv with rfl | rfl | rfl <;>
    norm_num [Plane.classify, Plane.dist, zPlane, Vec.dot, epsQ]

lemma quadS_notallplane : ¬ ∀ v ∈ quadS.vertices, zPlane.classify v = Loc.plane := by
  intro h
  have hm : (⟨0, 0, -1⟩ : Vec) ∈ quadS.vertices := by simp [quadS, mkPolygon]
  have h1 := ((classify_plane_iff zPlane _).mp (h _ hm)).1
  norm_num [Plane.dist, zPlane, Vec.dot, epsQ] at h1

lemma treeZ_eval : treeZ = .mk (some zPlane) [triZ] none none := by
  rw [treeZ, show ([triZ] : List Polygon) = triZ :: [] from rfl, partitionInto_succ,
    partitionBuckets_eq, plane_clone_eq, triZ_plane_eval]
  simp [bisect_triZ_eval, emptyNode, BSPNode.polygons, BSPNode.front, BSPNode.behind]

lemma bisect_triHigh_eval :
    (Plane.mk ⟨0, 0, -1⟩ 5).bisect triHigh = ⟨[], [triHigh], [], []⟩ := by
  norm_num [Plane.bisect, triHigh, mkPolygon, Plane.ofTriangle, Vec.minus,
    Vec.cross, Vec.unit, Vec.divide, Vec.magnitude, Vec.dot, ratSqrt,
    Plane.classify, Plane.dist, epsQ,
    show sqrtNat (Int.toNat 1) = 1 from by decide, show sqrtNat 1 = 1 from by decide]

/-- Partitioning `[triHigh]` into the existing `treeZ` overwrites the root
plane with `triHigh`'s plane and stores `triHigh` in the root. -/
lemma extend_eval : partitionInto 1 [triHigh] treeZ =
    .mk (some (Plane.mk ⟨0, 0, -1⟩ 5)) [triZ, triHigh] none none := by
  rw [treeZ_eval, show ([triHigh] : List Polygon) = triHigh :: [] from rfl,
    partitionInto_succ, partitionBuckets_eq, plane_clone_eq, triHigh_plane_eval]
  simp [bisect_triHigh_eval, BSPNode.polygons, BSPNode.front, BSPNode.behind]

/-- C1, corrected claim: `trim` bisects each input polygon against the
node's hyperplane, routing front and coplanar-same fragments into the
"outside" bucket and back and coplanar-reverse fragments into the "inside"
bucket; the outside bucket then recurses into `front`, the inside bucket
into `behind`, and the inside bucket is discarded when there is no `behind`
child. -/
theorem trim_c1_routing (hp : Plane) (ps polys : List Polygon)
    (fr bk : Option BSPNode) :
    trimPartition hp polys =
      (polys.flatMap (fun q => (hp.bisect q).front ++ (hp.bisect q).samePlane),
       polys.flatMap (fun q => (hp.bisect q).behind ++ (hp.bisect q).reversePlane)) ∧
    BSPNode.trim (.mk (some hp) ps fr bk) polys =
      (match fr with
       | some f => f.trim (trimPartition hp polys).1
       | none => (trimPartition hp polys).1) ++
      (match bk with
       | some b => b.trim (trimPartition hp polys).2
       | none => []) := by
  refine ⟨trimPartition_eq hp polys, ?_⟩
  rw [BSPNode.trim.eq_def]

/-- C1, counterexample: a polygon coplanar with the node's hyperplane and
facing the same way is routed by `trim` into the "outside" bucket — not the
"inside" bucket the claim asserts — and consequently survives trimming even
though the node has no `behind` child. -/
theorem trim_c1_counterexample :
    (∀ v ∈ triZ.vertices, zPlane.classify v = Loc.plane) ∧
    0 < zPlane.normal.dot triZ.plane.normal ∧
    trimPartition zPlane [triZ] = ([triZ], []) ∧
    BSPNode.trim (.mk (some zPlane) [] none none) [triZ] = [triZ] := by
  refine ⟨triZ_allplane, ?_, ?_, ?_⟩
  · rw [triZ_plane_eval]
    norm_num [zPlane, Vec.dot]
  · rw [trimPartition_eq]
    simp [bisect_triZ_eval]
  · rw [BSPNode.trim.eq_def]
    dsimp only
    rw [trimPartition_eq]
    simp [bisect_triZ_eval]

/-- C2, corrected claim: `Partition` with a non-empty polygon list and an
existing tree bisects the new polygons against the first NEW polygon's
plane, overwriting the supplied root's `hyperPlane` with a clone of it; the
root's stored polygons are kept with new coplanar ones appended, and the
existing `front`/`behind` children are reused (extended in place) when the
corresponding split list is non-empty. -/
theorem partition_c2_extend (fuel : Nat) (p : Polygon) (rest : List Polygon)
    (root : BSPNode) :
    partitionInto (fuel + 1) (p :: rest) root =
      .mk (some p.plane)
        (root.polygons ++ (p :: rest).flatMap
          (fun q => (p.plane.bisect q).samePlane ++ (p.plane.bisect q).reversePlane))
        (if ((p :: rest).flatMap (fun q => (p.plane.bisect q).front)).isEmpty
         then root.front
         else some (partitionInto fuel
           ((p :: rest).flatMap (fun q => (p.plane.bisect q).front))
           (root.front.getD emptyNode)))
        (if ((p :: rest).flatMap (fun q => (p.plane.bisect q).behind)).isEmpty
         then root.behind
         else some (partitionInto fuel
           ((p :: rest).flatMap (fun q => (p.plane.bisect q).behind))
           (root.behind.getD emptyNode))) := by
  rw [partitionInto_succ, partitionBuckets_eq, plane_clone_eq]

/-- C2, counterexample: partitioning `[triHigh]` into the existing tree
`treeZ` does NOT bisect against the supplied root's plane (`zPlane`): the
root plane is overwritten with `triHigh`'s own plane, and `triHigh` — which
lies strictly in front of `zPlane` — ends up stored at the root with no
front child created. -/
theorem partition_c2_counterexample :
    treeZ.hyperPlane = some zPlane ∧
    (partitionInto 1 [triHigh] treeZ).hyperPlane = some triHigh.plane ∧
    (partitionInto 1 [triHigh] treeZ).hyperPlane ≠ treeZ.hyperPlane ∧
    (⟨0, 0, 5⟩ : Vec) ∈ triHigh.vertices ∧
    epsQ < zPlane.dist ⟨0, 0, 5⟩ ∧
    (partitionInto 1 [triHigh] treeZ).front = none ∧
    triHigh ∈ (partitionInto 1 [triHigh] treeZ).polygons := by
  rw [extend_eval, treeZ_eval, triHigh_plane_eval]
  refine ⟨rfl, rfl, ?_, ?_, ?_, rfl, ?_⟩
  · simp [BSPNode.hyperPlane, zPlane]
  · simp [triHigh, mkPolygon]
  · norm_num [Plane.dist, zPlane, Vec.dot, epsQ]
  · simp [BSPNode.polygons]

/-- C3, corrected claim: in every BSP tree built by `Partition` from a
fresh polygon list, each node either has no plane and is an empty leaf, or
all its polygons are coplanar with its hyperplane within the `epsQ`
tolerance, every polygon in its front subtree lies on or in front of the
hyperplane (distance at least `-epsQ`), and every polygon in its behind
subtree lies on or behind it (distance at most `epsQ`), recursively. -/
theorem partition_c3_invariant (fuel : Nat) (polys : List Polygon) :
    (partitionInto fuel polys emptyNode).inv :=
  partitionInto_inv fuel polys

/-- C3, counterexample: the invariant fails for trees reached through the
tree-extension path: partitioning `[triHigh]` into `treeZ` overwrites the
root plane, leaving the stored polygon `triZ` at distance 5 from the new
root hyperplane. -/
theorem partition_c3_counterexample : ¬ (partitionInto 1 [triHigh] treeZ).inv := by
  rw [extend_eval, inv_mk_some]
  intro h
  have h1 := (h.1 triZ (by simp)).2 ⟨0, 0, 0⟩ (by simp [triZ, mkPolygon])
  norm_num [Plane.dist, Vec.dot, epsQ] at h1

/-- C4, confirmed: in the mixed (not all-coplanar) case, `bisect` walks
consecutive vertex pairs around the loop — front vertices go to the front
list only, back vertices to the back list only, plane vertices to both, and
each genuinely opposite consecutive pair contributes the intersection
vertex `lerp(v[i], v[i+1], t)` with
`t = -(v[i]·normal + p)/((v[i+1]-v[i])·normal)` to both lists — and a
polygon with the original color is emitted into the front (resp. behind)
bucket exactly when its list has at least 3 vertices. -/
theorem bisect_c4_mixed (pl : Plane) (q : Polygon)
    (h : ¬ ∀ v ∈ q.vertices, pl.classify v = Loc.plane) :
    pl.bisect q =
      ⟨if 3 ≤ ((List.range q.vertices.length).flatMap (frontContrib pl q)).length
        then [mkPolygon ((List.range q.vertices.length).flatMap (frontContrib pl q)) q.color]
        else [],
       [],
       if 3 ≤ ((List.range q.vertices.length).flatMap (backContrib pl q)).length
        then [mkPolygon ((List.range q.vertices.length).flatMap (backContrib pl q)) q.color]
        else [],
       []⟩ :=
  bisect_eq_mixed pl q h

/-- C4, witness at a concrete straddling square. -/
theorem bisect_c4_mixed_witness :
    (¬ ∀ v ∈ quadS.vertices, zPlane.classify v = Loc.plane) ∧
    zPlane.bisect quadS =
      ⟨if 3 ≤ ((List.range quadS.vertices.length).flatMap (frontContrib zPlane quadS)).length
        then [mkPolygon ((List.range quadS.vertices.length).flatMap (frontContrib zPlane quadS)) quadS.color]
        else [],
       [],
       if 3 ≤ ((List.range quadS.vertices.length).flatMap (backContrib zPlane quadS)).length
        then [mkPolygon ((List.range quadS.vertices.length).flatMap (backContrib zPlane quadS)) quadS.color]
        else [],
       []⟩ :=
  ⟨quadS_notallplane, bisect_c4_mixed zPlane quadS quadS_notallplane⟩

/-- C5, confirmed: `bisect` classifies a vertex as front exactly when
`d > 1e-5`, back exactly when `d < -1e-5`, and plane otherwise; and when
every vertex classifies plane, the whole polygon goes unsplit to
`samePlane` when `normal·polygon.plane.normal > 0` and to `reversePlane`
otherwise, with nothing in `front` or `behind`. -/
theorem bisect_c5_coplanar (pl : Plane) (q : Polygon)
    (h : ∀ v ∈ q.vertices, pl.classify v = Loc.plane) :
    (∀ v : Vec,
      (pl.classify v = .front ↔ epsQ < pl.dist v) ∧
      (pl.classify v = .back ↔ pl.dist v < -epsQ) ∧
      (pl.classify v = .plane ↔ -epsQ ≤ pl.dist v ∧ pl.dist v ≤ epsQ)) ∧
    pl.bisect q =
      (if pl.normal.dot q.plane.normal > 0 then ⟨[], [q], [], []⟩
       else ⟨[], [], [], [q]⟩) :=
  ⟨fun v => ⟨classify_front_iff pl v, classify_back_iff pl v,
    classify_plane_iff pl v⟩, bisect_eq_coplanar pl q h⟩

/-- C5, witness at a concrete coplanar triangle. -/
theorem bisect_c5_coplanar_witness :
    (∀ v ∈ triZ.vertices, zPlane.classify v = Loc.plane) ∧
    ((∀ v : Vec,
      (zPlane.classify v = .front ↔ epsQ < zPlane.dist v) ∧
      (zPlane.classify v = .back ↔ zPlane.dist v < -epsQ) ∧
      (zPlane.classify v = .plane ↔ -epsQ ≤ zPlane.dist v ∧ zPlane.dist v ≤ epsQ)) ∧
    zPlane.bisect triZ =
      (if zPlane.normal.dot triZ.plane.normal > 0 then ⟨[], [triZ], [], []⟩
       else ⟨[], [], [], [triZ]⟩)) :=
  ⟨triZ_allplane, bisect_c5_coplanar zPlane triZ triZ_allplane⟩

/-- C6, corrected claim: the round trip is exact when no split occurs — if
every input polygon is coplanar (within tolerance) with the first polygon's
plane, `concatPolys` of the partition returns exactly the input list. -/
theorem partition_c6_roundtrip (fuel : Nat) (p : Polygon) (rest : List Polygon)
    (h : ∀ q ∈ p :: rest, ∀ v ∈ q.vertices, p.plane.classify v = Loc.plane) :
    (partitionInto (fuel + 1) (p :: rest) emptyNode).concatPolys = p :: rest := by
  rw [partitionInto_succ, partitionBuckets_eq, plane_clone_eq]
  rw [flatMap_eq_nil _ _ (fun q hq => (bisect_coplanar_whole p.plane q (h q hq)).2.1),
    flatMap_eq_nil _ _ (fun q hq => (bisect_coplanar_whole p.plane q (h q hq)).2.2),
    flatMap_eq_self _ _ (fun q hq => (bisect_coplanar_whole p.plane q (h q hq)).1)]
  rw [concatPolys_mk]
  simp [emptyNode, BSPNode.polygons, BSPNode.front, BSPNode.behind]

/-- C6, witness: two coplanar triangles round-trip exactly. -/
theorem partition_c6_roundtrip_witness :
    (∀ q ∈ [triZ, triZ2], ∀ v ∈ q.vertices, triZ.plane.classify v = Loc.plane) ∧
    (partitionInto 1 [triZ, triZ2] emptyNode).concatPolys = [triZ, triZ2] := by
  have h : ∀ q ∈ [triZ, triZ2], ∀ v ∈ q.vertices, triZ.plane.classify v = Loc.plane := by
    rw [triZ_plane_eval]
    intro q hq v hv
    rcases (by simpa using hq : q = triZ ∨ q = triZ2) with rfl | rfl <;>
      simp [triZ, triZ2, mkPolygon] at hv <;>
      rcases hv with rfl | rfl | rfl <;>
      norm_num [Plane.classify, Plane.dist, zPlane, Vec.dot, epsQ]
  exact ⟨h, partition_c6_roundtrip 0 triZ [triZ2] h⟩

/-- C6, counterexample: a polygon split by the root plane makes the
flattened tree hold three polygons where the input held two, so count and
vertex data are not preserved in general. -/
theorem partition_c6_counterexample :
    (partitionInto 2 [triZ, quadS] emptyNode).concatPolys.length = 3 ∧
    ([triZ, quadS] : List Polygon).length = 2 := by
  constructor
  · norm_num [partitionInto, partitionBuckets, emptyNode, BSPNode.concatPolys,
      BSPNode.polygons, BSPNode.front, BSPNode.behind,
      Plane.bisect, bisectStep, Plane.clone, triZ, quadS, zPlane, mkPolygon,
      Plane.ofTriangle, Vec.minus, Vec.cross, Vec.unit, Vec.divide,
      Vec.magnitude, Vec.dot, Vec.lerp, Vec.times, Vec.plus, Vec.clone, ratSqrt,
      Plane.classify, Plane.dist, epsQ,
      show List.range 4 = [0, 1, 2, 3] from rfl,
      show List.range 3 = [0, 1, 2] from rfl,
      Int.toNat_ofNat,
      show sqrtNat (Int.toNat 1) = 1 from by decide,
      show sqrtNat (Int.toNat 4) = 2 from by decide,
      show sqrtNat 4 = 2 from by decide,
      show sqrtNat 1 = 1 from by decide]
  · rfl

/-- C7, confirmed: each boolean operator, viewed as a call on the
caller-held pair of geometries, leaves both input geometries (their polygon
lists, hence vertex coordinates, colors, and order) unchanged and returns
the operator's value on them.  The embedding is pure because in the source
every assignment inside `Union`/`Intersect`/`Subtract` targets tree state
created inside the call, and no `Polygon` or `Vector` method mutates its
receiver. -/
theorem boolean_c7_frame (fuel : Nat) (s : CallerState) :
    (runUnion fuel s).1 = s ∧ (runIntersect fuel s).1 = s ∧
    (runSubtract fuel s).1 = s ∧
    (runUnion fuel s).2 = BSPNode.Union fuel s.geo1 s.geo2 ∧
    (runIntersect fuel s).2 = BSPNode.Intersect fuel s.geo1 s.geo2 ∧
    (runSubtract fuel s).2 = BSPNode.Subtract fuel s.geo1 s.geo2 :=
  ⟨rfl, rfl, rfl, rfl, rfl, rfl⟩

/-- C8, confirmed: every polygon emitted by `bisect` (any bucket), and the
results of `Polygon.flip` and `Polygon.clone`, carry exactly the color of
the polygon they derive from. -/
theorem payload_c8_preserved (pl : Plane) (q w : Polygon)
    (h : w ∈ (pl.bisect q).front ∨ w ∈ (pl.bisect q).samePlane ∨
      w ∈ (pl.bisect q).behind ∨ w ∈ (pl.bisect q).reversePlane) :
    w.color = q.color ∧ (Polygon.flip q).color = q.color ∧
      (Polygon.clone q).color = q.color :=
  ⟨bisect_color pl q w h, rfl, rfl⟩

/-- C8, witness: the front fragment of a concrete split carries the split
polygon's color. -/
theorem payload_c8_witness :
    (mkPolygon [⟨1, 0, 0⟩, ⟨1, 0, 1⟩, ⟨0, 0, 1⟩, ⟨0, 0, 0⟩] colB).color = quadS.color ∧
    (Polygon.flip quadS).color = quadS.color ∧
    (Polygon.clone quadS).color = quadS.color := by
  refine payload_c8_preserved zPlane quadS _ (.inl ?_)
  rw [bisect_quadS_eval]
  simp

/-- C9, confirmed: `Partition` on an empty polygon list leaves any supplied
tree unchanged and returns the absent result, raising no error (the
embedding is a total function). -/
theorem partition_c9_empty (fuel : Nat) (root : BSPNode)
    (tree : Option BSPNode) :
    partitionInto fuel [] root = root ∧ BSPNode.Partition fuel [] tree = none := by
  constructor
  · cases fuel <;> rfl
  · rfl

/-- C10, confirmed: `trim` on a freshly constructed node (no hyperplane)
returns exactly the input polygons, unchanged and in order. -/
theorem trim_c10_empty (polys : List Polygon) :
    BSPNode.trim emptyNode polys = polys := by
  rw [emptyNode, BSPNode.trim.eq_def]
  dsimp only
  rw [List.map_id']
